import Mathlib

/-!
Verification of the genetic-algorithm solver for the multi-dimensional
knapsack problem (MKP) in `main.py`.

The Python source is shallowly embedded below: numpy integer arrays become
`List Int`, the random draws consumed by the optimizer (shuffled
permutations, tournament draws, crossover coins, mutation choices) become
explicit oracle parameters, and every Python code path that raises an
exception or indexes out of bounds becomes `none` of an `Option` result.
The dual vector `w` produced by `scipy.optimize.linprog` is external to the
repository and is passed as a parameter to the embedded preprocessing step.
-/

namespace GeneticAlg

/-- Problem data, from `class Problem` in `main.py`: `items` = n, `knapsacks` = m,
`r` the m×n cost matrix, `b` the length-m capacity vector, `p` the length-n
profit vector. -/
structure Problem where
  items : Nat
  knapsacks : Nat
  r : List (List Int)
  b : List Int
  p : List Int
deriving DecidableEq

/-- Elementwise vector sum, used for `R[:] + problem.r[:, j]`. -/
def vecAdd (x y : List Int) : List Int := List.zipWith (fun a c => a + c) x y

/-- Elementwise vector difference, used for `R[:] -= problem.r[:, j]`. -/
def vecSub (x y : List Int) : List Int := List.zipWith (fun a c => a - c) x y

/-- `np.less_equal(x, y).all()`. -/
def vecLE (x y : List Int) : Bool := (List.zipWith (fun a c => decide (a ≤ c)) x y).all id

/-- `np.greater(x, y).any()`. -/
def anyGT (x y : List Int) : Bool := (List.zipWith (fun a c => decide (c < a)) x y).any id

/-- Dot product of a cost-matrix row with a chromosome. -/
def dotRow (row S : List Int) : Int := (List.zipWith (fun a c => a * c) row S).sum

/-- Column j of the cost matrix: `problem.r[:, j]`. -/
def col (r : List (List Int)) (j : Nat) : List Int := r.map (fun row => row.getD j 0)

/-- Resource usage of a chromosome: `np.sum(np.multiply(problem.r, S), axis=1)`. -/
def usage (r : List (List Int)) (S : List Int) : List Int := r.map (fun row => dotRow row S)

/-- Feasibility of a chromosome: `r · S <= b` elementwise. -/
def feasible (prob : Problem) (S : List Int) : Bool := vecLE (usage prob.r S) prob.b

/-- The `"simple"` repair-strategy selector string. -/
def simpleOp : String := "simple"

/-- The `"fancy"` repair-strategy selector string. -/
def fancyOp : String := "fancy"

/-- DROP phase of `fancy_repair`: while any knapsack is over capacity, scan the
ascending utility permutation `u` from the front; each selected item met is
deselected and its cost subtracted from `R`. The scan index `j` is incremented
with no bound check in the source, so exhausting `u` while still infeasible is
an IndexError, modelled as `none`. -/
def dropPhase (prob : Problem) : List Nat → List Int → List Int → Option (List Int × List Int)
  | [], S, R => if anyGT R prob.b then none else some (S, R)
  | j :: rest, S, R =>
    if anyGT R prob.b then
      if S.getD j 0 = 1 then dropPhase prob rest (S.set j 0) (vecSub R (col prob.r j))
      else dropPhase prob rest S R
    else some (S, R)

/-- One step of the ADD phase of `fancy_repair` at scan index `j`: the item
`u[j]` is selected when it is currently unselected and adding its cost keeps
every knapsack within capacity. -/
def addStep (prob : Problem) (u : List Nat) (acc : List Int × List Int) (j : Nat) :
    List Int × List Int :=
  let uj := u.getD j 0
  if acc.1.getD uj 0 = 0 ∧ vecLE (vecAdd acc.2 (col prob.r uj)) prob.b = true then
    (acc.1.set uj 1, vecAdd acc.2 (col prob.r uj))
  else acc

/-- ADD phase of `fancy_repair`: `for j in range(problem.items - 1, 0, -1)`,
i.e. the scan indices are n-1, n-2, ..., 1 (index 0 is not visited). -/
def addPhase (prob : Problem) (u : List Nat) (S R : List Int) : List Int × List Int :=
  ((List.range' 1 (prob.items - 1)).reverse).foldl (addStep prob u) (S, R)

/-- `fancy_repair` from `main.py`: drop phase, add phase, then the sanity check
that raises (here `none`) when the accumulated usage still exceeds a capacity. -/
def fancy_repair (prob : Problem) (u : List Nat) (S R : List Int) : Option (List Int) :=
  match dropPhase prob u S R with
  | none => none
  | some SR₁ =>
    let SR₂ := addPhase prob u SR₁.1 SR₁.2
    if anyGT SR₂.2 prob.b then none else some SR₂.1

/-- `repair` from `main.py`: computes `R = r · S`, then dispatches on the
operator string; the simple strategy zeroes an infeasible chromosome and keeps
a feasible one, the fancy strategy calls `fancy_repair`, and any other selector
raises (modelled as `none`). -/
def repair (prob : Problem) (operator : String) (u : List Nat) (S : List Int) :
    Option (List Int) :=
  let R := usage prob.r S
  if operator = simpleOp then
    some (if anyGT R prob.b then List.replicate S.length 0 else S)
  else if operator = fancyOp then
    fancy_repair prob u S R
  else none

/-- The per-chromosome construction loop of `initialize_pop`: items are popped
from the shuffled permutation (`perm` lists them in pop order); a popped item
is selected while selecting it keeps every knapsack within capacity, and the
scan stops at the first item that does not fit. The pop `j, T = T[-1], T[:-1]`
has no emptiness check in the source, so popping from an exhausted permutation
is an IndexError, modelled as `none`. -/
def initScan (prob : Problem) : List Nat → List Int → List Int → Option (List Int × List Int)
  | [], _, _ => none
  | j :: rest, S, R =>
    if S.getD j 0 = 0 ∧ vecLE (vecAdd R (col prob.r j)) prob.b = true then
      initScan prob rest (S.set j 1) (vecAdd R (col prob.r j))
    else some (S, R)

/-- One chromosome of `initialize_pop`: start from the all-zero row with its
resource usage, run the greedy scan over the shuffled permutation, then apply
the sanity check that raises (here `none`) when the accumulated usage exceeds a
capacity. -/
def initChromosome (prob : Problem) (perm : List Nat) : Option (List Int) :=
  let S₀ : List Int := List.replicate prob.items 0
  match initScan prob perm S₀ (usage prob.r S₀) with
  | none => none
  | some SR => if anyGT SR.2 prob.b then none else some SR.1

/-- `initialize_pop` from `main.py`: build each of the N chromosomes
independently, one shuffled permutation (in pop order) per chromosome. -/
def initialize_pop (prob : Problem) : List (List Nat) → Option (List (List Int))
  | [] => some []
  | perm :: perms =>
    match initChromosome prob perm, initialize_pop prob perms with
    | some S, some rest => some (S :: rest)
    | _, _ => none

/-- `evaluate_child_fitness` from `main.py`: `np.sum(problem.p * child)`. -/
def evaluate_child_fitness (prob : Problem) (child : List Int) : Int := dotRow prob.p child

/-- `evaluate_pop_fitness` from `main.py`: the row-wise profit sums of the
population. -/
def evaluate_pop_fitness (prob : Problem) (population : List (List Int)) : List Int :=
  population.map (fun row => dotRow prob.p row)

/-- Inner loop of `np.argmax`/`np.argmin` style scans: `best` is the index of
the best value seen so far, `i` the index of the head of the remaining list,
and `better` decides whether a new value strictly beats the incumbent. -/
def argScan (better : Int → Int → Bool) : List Int → Nat → Nat → Int → Nat
  | [], _, best, _ => best
  | x :: xs, i, best, bestVal =>
    if better x bestVal then argScan better xs (i + 1) i x
    else argScan better xs (i + 1) best bestVal

/-- `np.argmax`: index of the first occurrence of the maximum (0 on empty input). -/
def argmaxList (l : List Int) : Nat :=
  match l with
  | [] => 0
  | x :: xs => argScan (fun a c => decide (c < a)) xs 1 0 x

/-- `np.argmin`: index of the first occurrence of the minimum (0 on empty input). -/
def argminList (l : List Int) : Nat :=
  match l with
  | [] => 0
  | x :: xs => argScan (fun a c => decide (a < c)) xs 1 0 x

/-- Validity of one `np.random.choice(pool, 2, replace=False)` draw: exactly two
distinct indices, each from the pool. The embedding takes the drawn indices as
an oracle and rules out draws the numpy call can never produce. -/
def validDraw (pool t : List Nat) : Bool :=
  t.length = 2 ∧ t.Nodup ∧ ∀ x ∈ t, x ∈ pool

/-- `binary_tournament_selection` from `main.py`: draw pool `T_1` from the index
pool `arange(popSize)`, delete `T_1` from the pool, draw `T_2` from the rest,
and return the fittest member of each pool. The two random draws are oracle
inputs `t1`, `t2`; impossible draws yield `none`. -/
def binary_tournament_selection (popSize : Nat) (fitness : List Int) (t1 t2 : List Nat) :
    Option (Nat × Nat) :=
  let pool := List.range popSize
  if validDraw pool t1 then
    let pool₂ := pool.filter (fun x => x ∉ t1)
    if validDraw pool₂ t2 then
      some (t1.getD (argmaxList (t1.map (fun i => fitness.getD i 0))) 0,
            t2.getD (argmaxList (t2.map (fun i => fitness.getD i 0))) 0)
    else none
  else none

/-- `uniform_crossover` from `main.py`: for every bit position a fair coin
(oracle list `coins`) picks the bit from parent 1 (coin 0) or parent 2. -/
def uniform_crossover (parent₁ parent₂ coins : List Int) : List Int :=
  (List.range parent₁.length).map
    (fun i => if coins.getD i 0 = 0 then parent₁.getD i 0 else parent₂.getD i 0)

/-- `mutate` from `main.py`: with the coin oracle equal to 1 the child is
returned unchanged, otherwise the oracle bit position `mutBit` is flipped
(an oracle position outside the chromosome can never be drawn by
`np.random.choice` and yields `none`). -/
def mutate (child : List Int) (mutCoin : Int) (mutBit : Nat) : Option (List Int) :=
  if mutCoin = 1 then some child
  else if mutBit < child.length then
    some (if child.getD mutBit 0 = 0 then child.set mutBit 1 else child.set mutBit 0)
  else none

/-- The value of one entry of `u = np.multiply(p, 1 / denom)`: a numpy float,
which is either a finite number (idealized here as an exact rational), `-inf`,
`+inf`, or `nan`. `np.argsort` orders floats as
`-inf < finite (ascending) < +inf < nan`. -/
inductive NpVal where
  | negInf
  | fin (q : ℚ)
  | posInf
  | nan
deriving DecidableEq

/-- The comparison `np.argsort` sorts by: `-inf` first, finite values by their
(exact) rational order, then `+inf`, then `nan` last. -/
def npLe : NpVal → NpVal → Bool
  | .negInf, _ => true
  | .fin _, .negInf => false
  | .fin q, .fin q' => q ≤ q'
  | .fin _, _ => true
  | .posInf, .negInf => false
  | .posInf, .fin _ => false
  | .posInf, _ => true
  | .nan, .nan => true
  | .nan, _ => false

/-- The utility denominator computed by `repair_preprocess`:
`for i in range(2): denom += w[i] * r[i, :]` — the sum runs over the fixed
index range {0, 1}, independently of `problem.knapsacks`. Only reached behind
the bounds guard of `repair_preprocess` (which captures the IndexError of
`w[1]` / `r[1, :]` when fewer than two rows exist), so both `getD` accesses
are genuine in-bounds reads. -/
def utilityDenom (prob : Problem) (w : List ℚ) (j : Nat) : ℚ :=
  ((List.range 2).map (fun i => w.getD i 0 * (((prob.r.getD i []).getD j 0 : Int) : ℚ))).sum

/-- The per-item utility computed by `repair_preprocess`, with numpy float
semantics for `p * (1 / denom)`: a zero denominator gives `1/0 = +inf` and
then `+inf`, `nan` or `-inf` according to the sign of the profit; a nonzero
denominator gives the (idealized exact) finite quotient. -/
def utilityCode (prob : Problem) (w : List ℚ) (j : Nat) : NpVal :=
  let denom := utilityDenom prob w j
  let p : ℚ := ((prob.p.getD j 0 : Int) : ℚ)
  if denom = 0 then
    if p = 0 then .nan
    else if 0 < p then .posInf
    else .negInf
  else .fin (p / denom)

/-- Modelled from the spec: the utility the specification prescribes, with the
denominator summed over all `m = problem.knapsacks` knapsacks (the LP dual
vector `w` itself comes from `scipy.optimize.linprog`, outside the repository,
and is a parameter). Used only to compare against `utilityCode`. -/
def utilitySpec (prob : Problem) (w : List ℚ) (j : Nat) : ℚ :=
  ((prob.p.getD j 0 : Int) : ℚ) /
    ((List.range prob.knapsacks).map
      (fun i => w.getD i 0 * (((prob.r.getD i []).getD j 0 : Int) : ℚ))).sum

/-- `repair_preprocess` from `main.py`, downstream of the external LP solve:
the denominator loop reads `w[0]`, `w[1]`, `r[0, :]` and `r[1, :]`, so with
fewer than two knapsacks (fewer than two dual entries or cost rows) it raises
IndexError, modelled as `none`. Otherwise it computes each item's utility and
returns `np.argsort(u)`, the permutation of item indices in ascending order of
utility, with `+inf`/`nan` entries (zero denominators) ordered last. -/
def repair_preprocess (prob : Problem) (w : List ℚ) : Option (List Nat) :=
  if 2 ≤ prob.r.length ∧ 2 ≤ w.length then
    some (List.insertionSort
      (fun a c => npLe (utilityCode prob w a) (utilityCode prob w c) = true)
      (List.range prob.items))
  else none

/-- The mutable state of one `find_ga` run: the population matrix, its fitness
vector, and the two record books (wall-clock times are not modelled). -/
structure GAState where
  population : List (List Int)
  fitness : List Int
  fitness_record : List Int
  solution_record : List (List Int)
deriving DecidableEq

/-- The random draws consumed by one child-generation attempt: the two
tournament pools, the crossover coins, and the mutation coin and bit position. -/
structure AttemptRand where
  t1 : List Nat
  t2 : List Nat
  coins : List Int
  mutCoin : Int
  mutBit : Nat
deriving DecidableEq

/-- One selection → crossover → mutation → repair attempt of the `find_ga`
loop body. -/
def attemptChild (prob : Problem) (operator : String) (u : List Nat)
    (population : List (List Int)) (fitness : List Int) (a : AttemptRand) :
    Option (List Int) :=
  match binary_tournament_selection population.length fitness a.t1 a.t2 with
  | none => none
  | some parents =>
    match mutate (uniform_crossover (population.getD parents.1 [])
        (population.getD parents.2 []) a.coins) a.mutCoin a.mutBit with
    | none => none
    | some C => repair prob operator u C

/-- The duplicate-rejection loop of `find_ga`: regenerate the child with fresh
randomness while it is bit-for-bit identical to a population member. The retry
loop is unbounded in the source; exhausting the oracle stream of random draws
models a stalled (non-terminating) loop as `none`. -/
def generateChild (prob : Problem) (operator : String) (u : List Nat)
    (population : List (List Int)) (fitness : List Int) :
    List AttemptRand → Option (List Int)
  | [] => none
  | a :: rest =>
    match attemptChild prob operator u population fitness a with
    | none => none
    | some C =>
      if C ∈ population then generateChild prob operator u population fitness rest
      else some C

/-- One generation `t → t+1` of `find_ga`: carry the record book forward,
generate a non-duplicate child, evaluate it, overwrite the lowest-fitness
population row when the child is strictly fitter, and update the carried
record when the child strictly beats it. Note that the source never updates
the `fitness` vector after the replacement. -/
def gaStep (prob : Problem) (operator : String) (u : List Nat) (st : GAState)
    (rands : List AttemptRand) : Option GAState :=
  match generateChild prob operator u st.population st.fitness rands with
  | none => none
  | some C =>
    let cFitness := evaluate_child_fitness prob C
    let carriedF := st.fitness_record.getLastD 0
    let carriedS := st.solution_record.getLastD []
    let sPrime := argminList st.fitness
    some
    { population :=
        if st.fitness.getD sPrime 0 < cFitness then st.population.set sPrime C
        else st.population
      fitness := st.fitness
      fitness_record :=
        st.fitness_record ++ [if carriedF < cFitness then cFitness else carriedF]
      solution_record :=
        st.solution_record ++ [if carriedF < cFitness then C else carriedS] }

/-- Iterate `gaStep` over the per-generation random draws. -/
def runGA (prob : Problem) (operator : String) (u : List Nat) :
    GAState → List (List AttemptRand) → Option GAState
  | st, [] => some st
  | st, g :: gens =>
    match gaStep prob operator u st g with
    | none => none
    | some st' => runGA prob operator u st' gens

/-- The state of `find_ga` after initialization (generation 0): the freshly
built population, its fitness vector, and the record books seeded with the
fittest initial member. -/
def mkInitState (prob : Problem) (pop : List (List Int)) : GAState :=
  let fitness := evaluate_pop_fitness prob pop
  let idx := argmaxList fitness
  { population := pop
    fitness := fitness
    fitness_record := [fitness.getD idx 0]
    solution_record := [pop.getD idx []] }

/-- `find_ga` from `main.py`: initialize the population (one shuffled
permutation per chromosome in `perms`), run the LP preprocessing (dual vector
`w` from the external solver; its IndexError for fewer than two knapsacks
aborts the run), and iterate the generation step over the per-generation
random draws. -/
def find_ga (prob : Problem) (operator : String) (perms : List (List Nat)) (w : List ℚ)
    (gens : List (List AttemptRand)) : Option GAState :=
  match initialize_pop prob perms with
  | none => none
  | some pop =>
    match repair_preprocess prob w with
    | none => none
    | some u => runGA prob operator u (mkInitState prob pop) gens

/-! ### Basic lemmas about the vector primitives -/

lemma getD_mem {α : Type} {l : List α} {i : Nat} (d : α) (h : i < l.length) :
    l.getD i d ∈ l := by
  rw [List.getD_eq_getElem l d h]
  exact List.getElem_mem h

lemma length_vecAdd (x y : List Int) : (vecAdd x y).length = min x.length y.length :=
  List.length_zipWith _ _ _

lemma length_vecSub (x y : List Int) : (vecSub x y).length = min x.length y.length :=
  List.length_zipWith _ _ _

lemma length_col (r : List (List Int)) (j : Nat) : (col r j).length = r.length :=
  List.length_map _ _

lemma length_usage (r : List (List Int)) (S : List Int) : (usage r S).length = r.length :=
  List.length_map _ _

/-- For equal-length vectors, `np.greater(x, y).any()` is the complement of
`np.less_equal(x, y).all()`. -/
lemma anyGT_eq_false_iff {x y : List Int} (h : x.length = y.length) :
    anyGT x y = false ↔ vecLE x y = true := by
  induction x generalizing y with
  | nil => cases y <;> simp [anyGT, vecLE]
  | cons a x ih =>
    cases y with
    | nil => simp at h
    | cons c y =>
      simp only [List.length_cons, Nat.succ.injEq] at h
      simp only [anyGT, vecLE, List.zipWith_cons_cons, List.any_cons, List.all_cons,
        Bool.or_eq_false_iff, Bool.and_eq_true, id_eq, decide_eq_false_iff_not, not_lt,
        decide_eq_true_eq]
      exact and_congr Iff.rfl (ih h)

/-- If every entry of `x` is zero and every entry of `y` is non-negative, no
entry of `x` exceeds the corresponding entry of `y`. -/
lemma anyGT_eq_false_of_zero {x y : List Int} (hx : ∀ a ∈ x, a = 0)
    (hy : ∀ c ∈ y, 0 ≤ c) : anyGT x y = false := by
  induction x generalizing y with
  | nil => simp [anyGT]
  | cons a x ih =>
    cases y with
    | nil => simp [anyGT]
    | cons c y =>
      simp only [anyGT, List.zipWith_cons_cons, List.any_cons, Bool.or_eq_false_iff,
        id_eq, decide_eq_false_iff_not, not_lt]
      constructor
      · rw [hx a (by simp)]
        exact hy c (by simp)
      · exact ih (fun a ha => hx a (by simp [ha])) (fun c hc => hy c (by simp [hc]))

lemma vecLE_of_zero {x y : List Int} (hx : ∀ a ∈ x, a = 0) (hy : ∀ c ∈ y, 0 ≤ c)
    (h : x.length = y.length) : vecLE x y = true :=
  (anyGT_eq_false_iff h).mp (anyGT_eq_false_of_zero hx hy)

lemma dotRow_eq_zero {S : List Int} (hS : ∀ x ∈ S, x = 0) (row : List Int) :
    dotRow row S = 0 := by
  induction S generalizing row with
  | nil => cases row <;> simp [dotRow]
  | cons s S ih =>
    cases row with
    | nil => simp [dotRow]
    | cons a row =>
      simp only [dotRow, List.zipWith_cons_cons, List.sum_cons]
      rw [hS s (by simp), show (List.zipWith (fun a c => a * c) row S).sum = dotRow row S from rfl,
        ih (fun x hx => hS x (by simp [hx]))]
      ring

lemma usage_entry_zero {r : List (List Int)} {S : List Int} (hS : ∀ x ∈ S, x = 0) :
    ∀ y ∈ usage r S, y = 0 := by
  intro y hy
  obtain ⟨row, _, rfl⟩ := List.mem_map.mp hy
  exact dotRow_eq_zero hS row

lemma getD_set_eq {l : List Int} {j : Nat} (v : Int) (h : j < l.length) :
    (l.set j v).getD j 0 = v := by
  rw [List.getD_eq_getElem _ _ (by simpa using h)]
  exact List.getElem_set_self (by simpa using h)

lemma getD_set_ne {l : List Int} {i j : Nat} (v : Int) (h : i ≠ j) :
    (l.set i v).getD j 0 = l.getD j 0 := by
  by_cases hj : j < l.length
  · rw [List.getD_eq_getElem _ _ (by simpa using hj), List.getD_eq_getElem _ _ hj]
    exact List.getElem_set_ne h _
  · rw [List.getD_eq_default _ _ (by simpa using Nat.le_of_not_lt hj),
      List.getD_eq_default _ _ (Nat.le_of_not_lt hj)]

/-- Overwriting position `j` of the chromosome changes the row dot product by
the row's entry at `j`, weighted by the change in the bit. -/
lemma dotRow_set {row S : List Int} {j : Nat} (v : Int) (hlen : row.length = S.length)
    (hj : j < S.length) :
    dotRow row (S.set j v) = dotRow row S + row.getD j 0 * (v - S.getD j 0) := by
  induction S generalizing row j with
  | nil => simp at hj
  | cons s S ih =>
    cases row with
    | nil => simp at hlen
    | cons a row =>
      simp only [List.length_cons, Nat.succ.injEq] at hlen
      cases j with
      | zero =>
        simp only [List.set, dotRow, List.zipWith_cons_cons, List.sum_cons, List.getD_cons_zero]
        ring
      | succ j =>
        simp only [List.set, dotRow, List.zipWith_cons_cons, List.sum_cons,
          List.getD_cons_succ]
        have := @ih row j hlen (Nat.lt_of_succ_lt_succ hj)
        simp only [dotRow] at this
        rw [this]
        ring

lemma dotRow_set_one {row S : List Int} {j : Nat} (hlen : row.length = S.length)
    (h : S.getD j 0 = 0) : dotRow row (S.set j 1) = dotRow row S + row.getD j 0 := by
  by_cases hj : j < S.length
  · rw [dotRow_set 1 hlen hj, h]; ring
  · rw [List.set_eq_of_length_le (Nat.le_of_not_lt hj),
      List.getD_eq_default _ _ (hlen ▸ Nat.le_of_not_lt hj)]
    ring

lemma dotRow_set_zero {row S : List Int} {j : Nat} (hlen : row.length = S.length)
    (h : S.getD j 0 = 1) : dotRow row (S.set j 0) = dotRow row S - row.getD j 0 := by
  by_cases hj : j < S.length
  · rw [dotRow_set 0 hlen hj, h]; ring
  · rw [List.getD_eq_default _ _ (Nat.le_of_not_lt hj)] at h
    exact absurd h (by norm_num)

lemma usage_set_one {r : List (List Int)} {S : List Int} {j : Nat}
    (hr : ∀ row ∈ r, row.length = S.length) (h : S.getD j 0 = 0) :
    usage r (S.set j 1) = vecAdd (usage r S) (col r j) := by
  induction r with
  | nil => simp [usage, vecAdd, col]
  | cons row r ih =>
    simp only [usage, col, List.map_cons, vecAdd, List.zipWith_cons_cons] at *
    rw [dotRow_set_one (hr row (by simp)) h]
    exact congrArg _ (ih (fun row hrow => hr row (by simp [hrow])))

lemma usage_set_zero {r : List (List Int)} {S : List Int} {j : Nat}
    (hr : ∀ row ∈ r, row.length = S.length) (h : S.getD j 0 = 1) :
    usage r (S.set j 0) = vecSub (usage r S) (col r j) := by
  induction r with
  | nil => simp [usage, vecSub, col]
  | cons row r ih =>
    simp only [usage, col, List.map_cons, vecSub, List.zipWith_cons_cons] at *
    rw [dotRow_set_zero (hr row (by simp)) h]
    exact congrArg _ (ih (fun row hrow => hr row (by simp [hrow])))

/-! ### Drop phase -/

/-- When no constraint is violated the drop phase exits at once. -/
lemma dropPhase_of_not_anyGT {prob : Problem} {us : List Nat} {S R : List Int}
    (h : anyGT R prob.b = false) : dropPhase prob us S R = some (S, R) := by
  cases us <;> simp [dropPhase, h]

/-- Whenever the drop phase returns, the returned usage vector is consistent
with the returned chromosome, the chromosome length is preserved, every
returned selected item was selected on entry, binary entries are preserved,
and the returned usage violates no constraint. -/
lemma dropPhase_some_spec {prob : Problem} :
    ∀ (us : List Nat) (S R S' R' : List Int),
      dropPhase prob us S R = some (S', R') →
      (∀ row ∈ prob.r, row.length = S.length) →
      R = usage prob.r S →
      R' = usage prob.r S' ∧ S'.length = S.length ∧ anyGT R' prob.b = false ∧
        (∀ x ∈ S', x ∈ S ∨ x = 0)
  | [], S, R, S', R', h, _, hR => by
    simp only [dropPhase] at h
    by_cases hgt : anyGT R prob.b = true
    · simp [hgt] at h
    · rw [if_neg hgt, Option.some.injEq, Prod.mk.injEq] at h
      obtain ⟨rfl, rfl⟩ := h
      exact ⟨hR, rfl, Bool.not_eq_true _ ▸ hgt, fun x hx => Or.inl hx⟩
  | j :: rest, S, R, S', R', h, hr, hR => by
    simp only [dropPhase] at h
    by_cases hgt : anyGT R prob.b = true
    · rw [if_pos hgt] at h
      by_cases hsel : S.getD j 0 = 1
      · rw [if_pos hsel] at h
        have hr' : ∀ row ∈ prob.r, row.length = (S.set j 0).length := by
          simpa [List.length_set] using hr
        have hR' : vecSub R (col prob.r j) = usage prob.r (S.set j 0) := by
          rw [hR, usage_set_zero hr hsel]
        obtain ⟨c1, c2, c3, c4⟩ := dropPhase_some_spec rest (S.set j 0) _ S' R' h hr' hR'
        refine ⟨c1, by simpa [List.length_set] using c2, c3, fun x hx => ?_⟩
        rcases c4 x hx with hx' | hx'
        · rcases List.mem_or_eq_of_mem_set hx' with hx'' | hx''
          · exact Or.inl hx''
          · exact Or.inr hx''
        · exact Or.inr hx'
      · rw [if_neg hsel] at h
        exact dropPhase_some_spec rest S R S' R' h hr hR
    · rw [if_neg hgt, Option.some.injEq, Prod.mk.injEq] at h
      obtain ⟨rfl, rfl⟩ := h
      exact ⟨hR, rfl, Bool.not_eq_true _ ▸ hgt, fun x hx => Or.inl hx⟩

/-- Termination of the drop phase: when the scan list covers every selected
item, the chromosome is binary, the usage vector is consistent and capacities
are non-negative, the scan cannot run off the end of `u` (the loop always
finds enough items to drop). -/
lemma dropPhase_total {prob : Problem}
    (hb0 : ∀ y ∈ prob.b, 0 ≤ y) :
    ∀ (us : List Nat) (S R : List Int),
      (∀ row ∈ prob.r, row.length = S.length) →
      R = usage prob.r S →
      (∀ x ∈ S, x = 0 ∨ x = 1) →
      (∀ j, S.getD j 0 = 1 → j ∈ us) →
      ∃ SR', dropPhase prob us S R = some SR'
  | [], S, R, hr, hR, hbin, hcov => by
    have hzero : ∀ x ∈ S, x = 0 := by
      intro x hx
      rcases hbin x hx with h0 | h1
      · exact h0
      · obtain ⟨i, hi, hget⟩ := List.mem_iff_getElem.mp hx
        have : S.getD i 0 = 1 := by rw [List.getD_eq_getElem _ _ hi, hget, h1]
        exact absurd (hcov i this) (List.not_mem_nil i)
    have : anyGT R prob.b = false := by
      rw [hR]
      exact anyGT_eq_false_of_zero (usage_entry_zero hzero) hb0
    exact ⟨(S, R), by simp [dropPhase, this]⟩
  | j :: rest, S, R, hr, hR, hbin, hcov => by
    by_cases hgt : anyGT R prob.b = true
    · by_cases hsel : S.getD j 0 = 1
      · have hj : j < S.length := by
          by_contra hj
          rw [List.getD_eq_default _ _ (Nat.le_of_not_lt hj)] at hsel
          exact absurd hsel (by norm_num)
        have hr' : ∀ row ∈ prob.r, row.length = (S.set j 0).length := by
          simpa [List.length_set] using hr
        have hR' : vecSub R (col prob.r j) = usage prob.r (S.set j 0) := by
          rw [hR, usage_set_zero hr hsel]
        have hbin' : ∀ x ∈ S.set j 0, x = 0 ∨ x = 1 := by
          intro x hx
          rcases List.mem_or_eq_of_mem_set hx with hx' | hx'
          · exact hbin x hx'
          · exact Or.inl hx'
        have hcov' : ∀ i, (S.set j 0).getD i 0 = 1 → i ∈ rest := by
          intro i hi
          by_cases hij : j = i
          · rw [← hij, getD_set_eq 0 hj] at hi
            exact absurd hi (by norm_num)
          · rw [getD_set_ne 0 hij] at hi
            have := hcov i hi
            simp only [List.mem_cons] at this
            rcases this with h' | h'
            · exact absurd h'.symm hij
            · exact h'
        obtain ⟨SR', hSR'⟩ := dropPhase_total hb0 rest (S.set j 0) (vecSub R (col prob.r j))
          hr' hR' hbin' hcov'
        refine ⟨SR', ?_⟩
        simp only [dropPhase]
        rw [if_pos hgt, if_pos hsel]
        exact hSR'
      · have hcov' : ∀ i, S.getD i 0 = 1 → i ∈ rest := by
          intro i hi
          have := hcov i hi
          simp only [List.mem_cons] at this
          rcases this with h' | h'
          · exact absurd (h' ▸ hi) hsel
          · exact h'
        obtain ⟨SR', hSR'⟩ := dropPhase_total hb0 rest S R hr hR hbin hcov'
        refine ⟨SR', ?_⟩
        simp only [dropPhase]
        rw [if_pos hgt, if_neg hsel]
        exact hSR'
    · rw [Bool.not_eq_true] at hgt
      exact ⟨(S, R), dropPhase_of_not_anyGT hgt⟩

/-! ### Add phase -/

/-- Without any hypotheses, one pass of the add scan never deselects an item
and changes the chromosome only at items named by the scanned `u` indices. -/
lemma addFold_changes {prob : Problem} {u : List Nat} :
    ∀ (L : List Nat) (S R : List Int),
      (∀ j, S.getD j 0 = 1 → (L.foldl (addStep prob u) (S, R)).1.getD j 0 = 1) ∧
        (∀ j, (L.foldl (addStep prob u) (S, R)).1.getD j 0 ≠ S.getD j 0 →
          ∃ i ∈ L, j = u.getD i 0)
  | [] => by intro S R; simp
  | i :: L => by
    intro S R
    simp only [List.foldl_cons]
    obtain ⟨ih1, ih2⟩ := @addFold_changes prob u L (addStep prob u (S, R) i).1
      (addStep prob u (S, R) i).2
    constructor
    · intro j hj
      apply ih1
      show (addStep prob u (S, R) i).1.getD j 0 = 1
      simp only [addStep]
      by_cases hc : (S.getD (u.getD i 0) 0 = 0 ∧
          vecLE (vecAdd R (col prob.r (u.getD i 0))) prob.b = true)
      · rw [if_pos hc]
        show (S.set (u.getD i 0) 1).getD j 0 = 1
        by_cases hij : u.getD i 0 = j
        · have hjlen : j < S.length := by
            by_contra hlen
            rw [List.getD_eq_default _ _ (Nat.le_of_not_lt hlen)] at hj
            exact absurd hj (by norm_num)
          rw [hij, getD_set_eq 1 hjlen]
        · rw [getD_set_ne 1 hij]
          exact hj
      · rw [if_neg hc]
        exact hj
    · intro j hj
      by_cases hstep : (addStep prob u (S, R) i).1.getD j 0 = S.getD j 0
      · obtain ⟨i', hi', hji'⟩ := ih2 j (hstep ▸ hj)
        exact ⟨i', by simp [hi'], hji'⟩
      · refine ⟨i, by simp, ?_⟩
        simp only [addStep] at hstep
        by_cases hc : (S.getD (u.getD i 0) 0 = 0 ∧
            vecLE (vecAdd R (col prob.r (u.getD i 0))) prob.b = true)
        · rw [if_pos hc] at hstep
          by_contra hij
          exact hstep (getD_set_ne 1 (fun h => hij h.symm))
        · rw [if_neg hc] at hstep
          exact absurd rfl hstep

/-- The add scan preserves usage-vector consistency, chromosome length, binary
entries and feasibility of the accumulated usage. -/
lemma addFold_spec {prob : Problem} {u : List Nat}
    (hblen : prob.b.length = prob.r.length) :
    ∀ (L : List Nat) (S R : List Int),
      (∀ row ∈ prob.r, row.length = S.length) →
      R = usage prob.r S →
      anyGT R prob.b = false →
      (L.foldl (addStep prob u) (S, R)).2 = usage prob.r (L.foldl (addStep prob u) (S, R)).1 ∧
        (L.foldl (addStep prob u) (S, R)).1.length = S.length ∧
        anyGT (L.foldl (addStep prob u) (S, R)).2 prob.b = false
  | [], S, R, hr, hR, hgt => ⟨hR, rfl, hgt⟩
  | i :: L, S, R, hr, hR, hgt => by
    simp only [List.foldl_cons]
    have hstep : (addStep prob u (S, R) i).2 = usage prob.r (addStep prob u (S, R) i).1 ∧
        (addStep prob u (S, R) i).1.length = S.length ∧
        anyGT (addStep prob u (S, R) i).2 prob.b = false := by
      by_cases hc : (S.getD (u.getD i 0) 0 = 0 ∧
          vecLE (vecAdd R (col prob.r (u.getD i 0))) prob.b = true)
      · have he : addStep prob u (S, R) i =
            (S.set (u.getD i 0) 1, vecAdd R (col prob.r (u.getD i 0))) := by
          simp only [addStep]
          rw [if_pos hc]
        rw [he]
        refine ⟨?_, List.length_set .., ?_⟩
        · show vecAdd R (col prob.r (u.getD i 0)) = usage prob.r (S.set (u.getD i 0) 1)
          rw [hR, usage_set_one hr hc.1]
        · show anyGT (vecAdd R (col prob.r (u.getD i 0))) prob.b = false
          have hlen : (vecAdd R (col prob.r (u.getD i 0))).length = prob.b.length := by
            rw [length_vecAdd, hR, length_usage, length_col, min_self, hblen]
          exact (anyGT_eq_false_iff hlen).mpr hc.2
      · have he : addStep prob u (S, R) i = (S, R) := by
          simp only [addStep]
          rw [if_neg hc]
        rw [he]
        exact ⟨hR, rfl, hgt⟩
    obtain ⟨h1, h2, h3⟩ := hstep
    obtain ⟨c1, c2, c3⟩ := addFold_spec hblen L (addStep prob u (S, R) i).1
      (addStep prob u (S, R) i).2 (by rw [h2]; exact hr) h1 h3
    exact ⟨c1, h2 ▸ c2, c3⟩

/-! ### Repair specification -/

/-- Whenever `fancy_repair` returns a chromosome (i.e. the sanity-check
exception is not raised), the result is feasible and has the input's length.
Note the hypothesis that the supplied usage vector is consistent, exactly as
`repair` supplies it. -/
lemma fancy_repair_some_spec {prob : Problem} {u : List Nat} {S C : List Int}
    (hr : ∀ row ∈ prob.r, row.length = S.length)
    (hblen : prob.b.length = prob.r.length)
    (h : fancy_repair prob u S (usage prob.r S) = some C) :
    feasible prob C = true ∧ C.length = S.length := by
  unfold fancy_repair at h
  rcases hdrop : dropPhase prob u S (usage prob.r S) with _ | SR₁
  · rw [hdrop] at h
    exact absurd h (by simp)
  · rw [hdrop] at h
    obtain ⟨d1, d2, d3, _⟩ := dropPhase_some_spec u S (usage prob.r S) SR₁.1 SR₁.2
      (by rw [← hdrop]) hr rfl
    obtain ⟨a1, a2, a3⟩ := addFold_spec hblen ((List.range' 1 (prob.items - 1)).reverse)
      SR₁.1 SR₁.2 (by rw [d2]; exact hr) d1 d3
    simp only at h
    by_cases hgt : anyGT (addPhase prob u SR₁.1 SR₁.2).2 prob.b = true
    · rw [if_pos hgt] at h
      exact absurd h (by simp)
    · rw [if_neg hgt, Option.some.injEq] at h
      have hfeas : feasible prob C = true := by
        unfold feasible
        rw [← h]
        have hlen : (addPhase prob u SR₁.1 SR₁.2).2.length = prob.b.length := by
          show ((List.range' 1 (prob.items - 1)).reverse.foldl (addStep prob u)
            (SR₁.1, SR₁.2)).2.length = prob.b.length
          rw [a1, length_usage, hblen]
        have := (anyGT_eq_false_iff hlen).mp (Bool.not_eq_true _ ▸ hgt)
        rw [show (addPhase prob u SR₁.1 SR₁.2).2 =
          usage prob.r (addPhase prob u SR₁.1 SR₁.2).1 from a1] at this
        exact this
      exact ⟨hfeas, by rw [← h]; exact a2.trans d2⟩

/-- Whenever `repair` returns a chromosome, under any strategy selector, the
result is feasible and has the input's length (capacities are non-negative for
every generated problem instance, which the zero-reset branch of the simple
strategy needs). -/
lemma repair_some_spec {prob : Problem} {operator : String} {u : List Nat} {S C : List Int}
    (hr : ∀ row ∈ prob.r, row.length = S.length)
    (hblen : prob.b.length = prob.r.length)
    (hb0 : ∀ y ∈ prob.b, 0 ≤ y)
    (h : repair prob operator u S = some C) :
    feasible prob C = true ∧ C.length = S.length := by
  unfold repair at h
  by_cases hop : operator = simpleOp
  · rw [if_pos hop, Option.some.injEq] at h
    by_cases hgt : anyGT (usage prob.r S) prob.b = true
    · rw [if_pos hgt] at h
      refine ⟨?_, by rw [← h]; exact List.length_replicate ..⟩
      unfold feasible
      rw [← h]
      refine vecLE_of_zero (usage_entry_zero ?_) hb0 (by rw [length_usage, hblen])
      intro x hx
      exact List.eq_of_mem_replicate hx
    · rw [if_neg hgt] at h
      refine ⟨?_, by rw [← h]⟩
      unfold feasible
      rw [← h]
      exact (anyGT_eq_false_iff (by rw [length_usage, hblen])).mp (Bool.not_eq_true _ ▸ hgt)
  · rw [if_neg hop] at h
    by_cases hop' : operator = fancyOp
    · rw [if_pos hop'] at h
      exact fancy_repair_some_spec hr hblen h
    · rw [if_neg hop'] at h
      exact absurd h (by simp)

/-! ### Initializer specification -/

/-- The greedy scan of `initialize_pop` preserves usage-vector consistency and
chromosome length. -/
lemma initScan_some_spec {prob : Problem} :
    ∀ (perm : List Nat) (S R S' R' : List Int),
      initScan prob perm S R = some (S', R') →
      (∀ row ∈ prob.r, row.length = S.length) →
      R = usage prob.r S →
      R' = usage prob.r S' ∧ S'.length = S.length
  | [], S, R, S', R', h, _, _ => by simp [initScan] at h
  | j :: rest, S, R, S', R', h, hr, hR => by
    simp only [initScan] at h
    by_cases hc : (S.getD j 0 = 0 ∧ vecLE (vecAdd R (col prob.r j)) prob.b = true)
    · rw [if_pos hc] at h
      have hr' : ∀ row ∈ prob.r, row.length = (S.set j 1).length := by
        simpa [List.length_set] using hr
      have hR' : vecAdd R (col prob.r j) = usage prob.r (S.set j 1) := by
        rw [hR, usage_set_one hr hc.1]
      obtain ⟨c1, c2⟩ := initScan_some_spec rest (S.set j 1) _ S' R' h hr' hR'
      exact ⟨c1, by simpa [List.length_set] using c2⟩
    · rw [if_neg hc, Option.some.injEq, Prod.mk.injEq] at h
      obtain ⟨rfl, rfl⟩ := h
      exact ⟨hR, rfl⟩

/-- Every chromosome the initializer returns is feasible (by its own sanity
check plus usage consistency) and has length `items`. -/
lemma initChromosome_some_spec {prob : Problem} {perm : List Nat} {S : List Int}
    (hr : ∀ row ∈ prob.r, row.length = prob.items)
    (hblen : prob.b.length = prob.r.length)
    (h : initChromosome prob perm = some S) :
    feasible prob S = true ∧ S.length = prob.items := by
  unfold initChromosome at h
  dsimp only at h
  rcases hscan : initScan prob perm (List.replicate prob.items 0)
      (usage prob.r (List.replicate prob.items 0)) with _ | SR
  · rw [hscan] at h
    exact absurd h (by simp)
  · rw [hscan] at h
    simp only at h
    obtain ⟨c1, c2⟩ := initScan_some_spec perm (List.replicate prob.items 0) _ SR.1 SR.2
      (by rw [← hscan]) (by simpa [List.length_replicate] using hr) rfl
    by_cases hgt : anyGT SR.2 prob.b = true
    · rw [if_pos hgt] at h
      exact absurd h (by simp)
    · rw [if_neg hgt, Option.some.injEq] at h
      refine ⟨?_, by rw [← h, c2]; exact List.length_replicate ..⟩
      unfold feasible
      rw [← h]
      have hlen : SR.2.length = prob.b.length := by rw [c1, length_usage, hblen]
      have := (anyGT_eq_false_iff hlen).mp (Bool.not_eq_true _ ▸ hgt)
      rw [c1] at this
      exact this

/-- Every row of the population built by `initialize_pop` is feasible and has
length `items`. -/
lemma initialize_pop_some_spec {prob : Problem}
    (hr : ∀ row ∈ prob.r, row.length = prob.items)
    (hblen : prob.b.length = prob.r.length) :
    ∀ (perms : List (List Nat)) (pop : List (List Int)),
      initialize_pop prob perms = some pop →
      ∀ S ∈ pop, feasible prob S = true ∧ S.length = prob.items
  | [], pop, h => by
    simp only [initialize_pop, Option.some.injEq] at h
    intro S hS
    rw [← h] at hS
    exact absurd hS (List.not_mem_nil S)
  | perm :: perms, pop, h => by
    simp only [initialize_pop] at h
    rcases h1 : initChromosome prob perm with _ | S₀
    · rw [h1] at h
      exact absurd h (by simp)
    · rw [h1] at h
      rcases h2 : initialize_pop prob perms with _ | rest
      · rw [h2] at h
        exact absurd h (by simp)
      · rw [h2, Option.some.injEq] at h
        intro S hS
        rw [← h] at hS
        rcases List.mem_cons.mp hS with hS' | hS'
        · rw [hS']
          exact initChromosome_some_spec hr hblen h1
        · exact initialize_pop_some_spec hr hblen perms rest h2 S hS'

/-! ### Selection, crossover and mutation -/

lemma argScan_lt (better : Int → Int → Bool) :
    ∀ (l : List Int) (i best : Nat) (bv : Int) (n : Nat),
      best < n → i + l.length ≤ n → argScan better l i best bv < n
  | [], _, _, _, _, hb, _ => hb
  | x :: xs, i, best, bv, n, hb, hi => by
    unfold argScan
    have hi' : i < n := Nat.lt_of_lt_of_le (by simp) hi
    have hrest : i + 1 + xs.length ≤ n := by
      simpa [Nat.add_comm, Nat.add_left_comm, Nat.add_assoc] using hi
    by_cases hbx : better x bv = true
    · rw [if_pos hbx]
      exact argScan_lt better xs (i + 1) i x n hi' hrest
    · rw [if_neg hbx]
      exact argScan_lt better xs (i + 1) best bv n hb hrest

lemma argmaxList_lt {l : List Int} (h : l ≠ []) : argmaxList l < l.length := by
  rcases l with _ | ⟨x, xs⟩
  · exact absurd rfl h
  · exact argScan_lt _ xs 1 0 x (xs.length + 1) (Nat.succ_pos _) (by simp [Nat.add_comm])

lemma validDraw_iff {pool t : List Nat} :
    validDraw pool t = true ↔ t.length = 2 ∧ t.Nodup ∧ ∀ x ∈ t, x ∈ pool := by
  simp [validDraw]

/-- Structure of a successful tournament selection: each parent belongs to its
own draw pool, the second pool avoids the first (the source deletes `T_1` from
the index pool before drawing `T_2`), and both parents index into the
population. -/
lemma selection_some_spec {popSize : Nat} {fitness : List Int} {t1 t2 : List Nat}
    {p1 p2 : Nat}
    (h : binary_tournament_selection popSize fitness t1 t2 = some (p1, p2)) :
    p1 ∈ t1 ∧ p2 ∈ t2 ∧ (∀ x ∈ t2, x ∉ t1) ∧ p1 < popSize ∧ p2 < popSize := by
  unfold binary_tournament_selection at h
  by_cases h1 : validDraw (List.range popSize) t1 = true
  · rw [if_pos h1] at h
    by_cases h2 : validDraw ((List.range popSize).filter (fun x => x ∉ t1)) t2 = true
    · rw [if_pos h2, Option.some.injEq, Prod.mk.injEq] at h
      obtain ⟨hv1, _, hm1⟩ := validDraw_iff.mp h1
      obtain ⟨hv2, _, hm2⟩ := validDraw_iff.mp h2
      have hp1 : p1 ∈ t1 := by
        rw [← h.1]
        refine getD_mem 0 (argmaxList_lt ?_ |>.trans_le ?_)
        · intro hemp
          rcases t1 with _ | ⟨y, ys⟩
          · simp at hv1
          · simp at hemp
        · rw [List.length_map]
      have hp2 : p2 ∈ t2 := by
        rw [← h.2]
        refine getD_mem 0 (argmaxList_lt ?_ |>.trans_le ?_)
        · intro hemp
          rcases t2 with _ | ⟨y, ys⟩
          · simp at hv2
          · simp at hemp
        · rw [List.length_map]
      have ht2 : ∀ x ∈ t2, x ∉ t1 := by
        intro x hx
        have := hm2 x hx
        exact (List.mem_filter.mp this).2 |> (by simp : (decide (x ∉ t1) = true) → x ∉ t1)
      refine ⟨hp1, hp2, ht2, ?_, ?_⟩
      · exact List.mem_range.mp (hm1 p1 hp1)
      · exact List.mem_range.mp (List.mem_filter.mp (hm2 p2 hp2)).1
    · rw [if_neg h2] at h
      exact absurd h (by simp)
  · rw [if_neg h1] at h
    exact absurd h (by simp)

lemma length_uniform_crossover (parent₁ parent₂ coins : List Int) :
    (uniform_crossover parent₁ parent₂ coins).length = parent₁.length := by
  simp [uniform_crossover]

lemma mutate_some_length {child C : List Int} {mutCoin : Int} {mutBit : Nat}
    (h : mutate child mutCoin mutBit = some C) : C.length = child.length := by
  unfold mutate at h
  by_cases h1 : mutCoin = 1
  · rw [if_pos h1, Option.some.injEq] at h
    rw [← h]
  · rw [if_neg h1] at h
    by_cases h2 : mutBit < child.length
    · rw [if_pos h2, Option.some.injEq] at h
      rw [← h]
      by_cases h3 : child.getD mutBit 0 = 0
      · rw [if_pos h3]
        exact List.length_set ..
      · rw [if_neg h3]
        exact List.length_set ..
    · rw [if_neg h2] at h
      exact absurd h (by simp)

/-! ### Population invariant through the generation loop -/

/-- The population invariant: every row is feasible and has length `items`. -/
def popInv (prob : Problem) (pop : List (List Int)) : Prop :=
  ∀ S ∈ pop, feasible prob S = true ∧ S.length = prob.items

lemma attemptChild_some_spec {prob : Problem} {operator : String} {u : List Nat}
    {pop : List (List Int)} {fitness : List Int} {a : AttemptRand} {C : List Int}
    (hr : ∀ row ∈ prob.r, row.length = prob.items)
    (hblen : prob.b.length = prob.r.length)
    (hb0 : ∀ y ∈ prob.b, 0 ≤ y)
    (hpop : popInv prob pop)
    (h : attemptChild prob operator u pop fitness a = some C) :
    feasible prob C = true ∧ C.length = prob.items := by
  unfold attemptChild at h
  rcases hsel : binary_tournament_selection pop.length fitness a.t1 a.t2 with _ | parents
  · rw [hsel] at h
    exact absurd h (by simp)
  · rw [hsel] at h
    dsimp only at h
    obtain ⟨_, _, _, hp1, _⟩ := @selection_some_spec pop.length fitness a.t1 a.t2
      parents.1 parents.2 (by rw [hsel])
    have hP1len : (pop.getD parents.1 []).length = prob.items :=
      (hpop _ (getD_mem [] hp1)).2
    rcases hmut : mutate (uniform_crossover (pop.getD parents.1 [])
        (pop.getD parents.2 []) a.coins) a.mutCoin a.mutBit with _ | C'
    · rw [hmut] at h
      exact absurd h (by simp)
    · rw [hmut] at h
      have hC'len : C'.length = prob.items := by
        rw [mutate_some_length hmut, length_uniform_crossover, hP1len]
      have hr' : ∀ row ∈ prob.r, row.length = C'.length := by
        rw [hC'len]; exact hr
      obtain ⟨hf, hl⟩ := repair_some_spec hr' hblen hb0 h
      exact ⟨hf, hl.trans hC'len⟩

lemma generateChild_some_spec {prob : Problem} {operator : String} {u : List Nat}
    {pop : List (List Int)} {fitness : List Int}
    (hr : ∀ row ∈ prob.r, row.length = prob.items)
    (hblen : prob.b.length = prob.r.length)
    (hb0 : ∀ y ∈ prob.b, 0 ≤ y)
    (hpop : popInv prob pop) :
    ∀ (rands : List AttemptRand) (C : List Int),
      generateChild prob operator u pop fitness rands = some C →
      feasible prob C = true ∧ C.length = prob.items
  | [], C, h => by simp [generateChild] at h
  | a :: rest, C, h => by
    simp only [generateChild] at h
    rcases hatt : attemptChild prob operator u pop fitness a with _ | C₀
    · rw [hatt] at h
      exact absurd h (by simp)
    · rw [hatt] at h
      dsimp only at h
      by_cases hdup : C₀ ∈ pop
      · rw [if_pos hdup] at h
        exact generateChild_some_spec hr hblen hb0 hpop rest C h
      · rw [if_neg hdup, Option.some.injEq] at h
        rw [← h]
        exact attemptChild_some_spec hr hblen hb0 hpop hatt

lemma gaStep_popInv {prob : Problem} {operator : String} {u : List Nat}
    {st st' : GAState} {rands : List AttemptRand}
    (hr : ∀ row ∈ prob.r, row.length = prob.items)
    (hblen : prob.b.length = prob.r.length)
    (hb0 : ∀ y ∈ prob.b, 0 ≤ y)
    (hpop : popInv prob st.population)
    (h : gaStep prob operator u st rands = some st') :
    popInv prob st'.population := by
  unfold gaStep at h
  rcases hgen : generateChild prob operator u st.population st.fitness rands with _ | C
  · rw [hgen] at h
    exact absurd h (by simp)
  · rw [hgen] at h
    simp only [Option.some.injEq] at h
    have hC := generateChild_some_spec hr hblen hb0 hpop rands C hgen
    intro S hS
    rw [← h] at hS
    simp only at hS
    by_cases hcmp : st.fitness.getD (argminList st.fitness) 0 < evaluate_child_fitness prob C
    · rw [if_pos hcmp] at hS
      rcases List.mem_or_eq_of_mem_set hS with hS' | hS'
      · exact hpop S hS'
      · rw [hS']
        exact hC
    · rw [if_neg hcmp] at hS
      exact hpop S hS

lemma runGA_popInv {prob : Problem} {operator : String} {u : List Nat}
    (hr : ∀ row ∈ prob.r, row.length = prob.items)
    (hblen : prob.b.length = prob.r.length)
    (hb0 : ∀ y ∈ prob.b, 0 ≤ y) :
    ∀ (gens : List (List AttemptRand)) (st st' : GAState),
      popInv prob st.population →
      runGA prob operator u st gens = some st' →
      popInv prob st'.population
  | [], st, st', hpop, h => by
    simp only [runGA, Option.some.injEq] at h
    rw [← h]
    exact hpop
  | g :: gens, st, st', hpop, h => by
    simp only [runGA] at h
    rcases hstep : gaStep prob operator u st g with _ | st₁
    · rw [hstep] at h
      exact absurd h (by simp)
    · rw [hstep] at h
      exact runGA_popInv hr hblen hb0 gens st₁ st'
        (gaStep_popInv hr hblen hb0 hpop hstep) h

/-! ### Record-book monotonicity -/

lemma gaStep_record {prob : Problem} {operator : String} {u : List Nat}
    {st st' : GAState} {rands : List AttemptRand}
    (h : gaStep prob operator u st rands = some st') :
    ∃ x, st'.fitness_record = st.fitness_record ++ [x] ∧
      st.fitness_record.getLastD 0 ≤ x := by
  unfold gaStep at h
  rcases hgen : generateChild prob operator u st.population st.fitness rands with _ | C
  · rw [hgen] at h
    exact absurd h (by simp)
  · rw [hgen] at h
    simp only [Option.some.injEq] at h
    refine ⟨if st.fitness_record.getLastD 0 < evaluate_child_fitness prob C then
      evaluate_child_fitness prob C else st.fitness_record.getLastD 0, ?_, ?_⟩
    · rw [← h]
    · by_cases hcmp : st.fitness_record.getLastD 0 < evaluate_child_fitness prob C
      · rw [if_pos hcmp]
        exact le_of_lt hcmp
      · rw [if_neg hcmp]

lemma chain'_le_append_last {l : List Int} {x : Int}
    (h : List.Chain' (fun a c => a ≤ c) l) (hne : l ≠ [])
    (hx : l.getLastD 0 ≤ x) :
    List.Chain' (fun a c => a ≤ c) (l ++ [x]) := by
  rw [List.chain'_append]
  refine ⟨h, List.chain'_singleton x, ?_⟩
  intro a ha y hy
  simp only [List.head?_cons, Option.mem_def, Option.some.injEq] at hy
  rw [List.getLast?_eq_getLast l hne, Option.mem_def, Option.some.injEq] at ha
  rw [List.getLastD_eq_getLast?, List.getLast?_eq_getLast l hne, Option.getD_some] at hx
  rw [← hy, ← ha]
  exact hx

lemma runGA_record {prob : Problem} {operator : String} {u : List Nat} :
    ∀ (gens : List (List AttemptRand)) (st st' : GAState),
      List.Chain' (fun a c => a ≤ c) st.fitness_record →
      st.fitness_record ≠ [] →
      runGA prob operator u st gens = some st' →
      List.Chain' (fun a c => a ≤ c) st'.fitness_record
  | [], st, st', hchain, _, h => by
    simp only [runGA, Option.some.injEq] at h
    rw [← h]
    exact hchain
  | g :: gens, st, st', hchain, hne, h => by
    simp only [runGA] at h
    rcases hstep : gaStep prob operator u st g with _ | st₁
    · rw [hstep] at h
      exact absurd h (by simp)
    · rw [hstep] at h
      obtain ⟨x, hx, hle⟩ := gaStep_record hstep
      refine runGA_record gens st₁ st' ?_ ?_ h
      · rw [hx]
        exact chain'_le_append_last hchain hne hle
      · rw [hx]
        simp

/-! ### The numpy sort order -/

lemma npLe_total (a c : NpVal) : npLe a c = true ∨ npLe c a = true := by
  cases a <;> cases c <;> simp [npLe]
  exact le_total _ _

lemma npLe_trans {a c d : NpVal} (h1 : npLe a c = true) (h2 : npLe c d = true) :
    npLe a d = true := by
  cases a <;> cases c <;> cases d <;> simp [npLe] at *
  exact le_trans h1 h2

/-! ### The claims -/

/-- Claim C1: population feasibility invariant. For every run of the optimizer
(arbitrary oracle randomness, any strategy selector, any generated problem
instance, whose capacities are non-negative and whose cost matrix is
well-formed), at the end of initialization (`gens = []`) and at the end of
every generation (any `gens`), every population row satisfies `r · x ≤ b`
elementwise. -/
theorem population_always_feasible (prob : Problem) (operator : String)
    (perms : List (List Nat)) (w : List ℚ) (gens : List (List AttemptRand)) (st : GAState)
    (hr : ∀ row ∈ prob.r, row.length = prob.items)
    (hblen : prob.b.length = prob.r.length)
    (hb0 : ∀ y ∈ prob.b, 0 ≤ y)
    (hrun : find_ga prob operator perms w gens = some st) :
    ∀ S ∈ st.population, feasible prob S = true := by
  unfold find_ga at hrun
  rcases hinit : initialize_pop prob perms with _ | pop
  · rw [hinit] at hrun
    exact absurd hrun (by simp)
  · rw [hinit] at hrun
    dsimp only at hrun
    rcases hpre : repair_preprocess prob w with _ | u
    · rw [hpre] at hrun
      exact absurd hrun (by simp)
    · rw [hpre] at hrun
      have hpop : popInv prob (mkInitState prob pop).population :=
        fun S hS => initialize_pop_some_spec hr hblen perms pop hinit S hS
      have := runGA_popInv hr hblen hb0 gens _ st hpop hrun
      exact fun S hS => (this S hS).1

/-- Claim C1 witness: in a concrete two-item, two-knapsack run (one
generation, simple repair) the first final-population row is feasible. -/
theorem population_always_feasible_witness :
    feasible ⟨2, 2, [[1, 3], [1, 3]], [2, 2], [5, 7]⟩ [1, 0] = true :=
  population_always_feasible ⟨2, 2, [[1, 3], [1, 3]], [2, 2], [5, 7]⟩ simpleOp
    [[0, 1], [0, 1], [0, 1], [0, 1]] [1, 1] [[⟨[0, 1], [2, 3], [0, 0], 0, 1⟩]]
    ⟨[[1, 0], [1, 0], [1, 0], [1, 0]], [5, 5, 5, 5], [5, 5], [[1, 0], [1, 0]]⟩
    (by decide) (by decide) (by decide) (by decide) [1, 0] (by decide)

/-- Claim C2 (code bug): in the generation step, after the repaired child
`[1]` (fresh fitness 5) replaces the lowest-fitness row 0, the fitness vector
still reads the stale value 0 for that row — the source never updates
`fitness` after `population[S_prime] = C`. -/
theorem replacement_leaves_fitness_stale :
    gaStep ⟨1, 1, [[1]], [1], [5]⟩ simpleOp [0]
        ⟨[[0], [0], [0], [0]], [0, 0, 0, 0], [0], [[0]]⟩
        [⟨[0, 1], [2, 3], [0], 0, 0⟩] =
      some ⟨[[1], [0], [0], [0]], [0, 0, 0, 0], [0, 5], [[0], [1]]⟩ ∧
    evaluate_child_fitness ⟨1, 1, [[1]], [1], [5]⟩ [1] = 5 := by decide

/-- Claim C3 counterexample: the chromosome `[0, 0]` is feasible, yet the fancy
strategy returns `[0, 1]` — the add phase selects a new item, so repair is not
idempotent on feasible chromosomes. -/
theorem repair_not_idempotent_for_fancy :
    feasible ⟨2, 1, [[1, 1]], [2], [1, 1]⟩ [0, 0] = true ∧
    repair ⟨2, 1, [[1, 1]], [2], [1, 1]⟩ fancyOp [0, 1] [0, 0] = some [0, 1] ∧
    ([0, 1] : List Int) ≠ [0, 0] := by decide

/-- Claim C3 (amended): on an already-feasible chromosome the simple strategy
returns it unchanged; the fancy strategy skips the drop phase and never
deselects a selected item, but its add phase may additionally select items, so
its result need not equal the input. -/
theorem repair_on_feasible (prob : Problem) (u : List Nat) (S : List Int)
    (hr : ∀ row ∈ prob.r, row.length = S.length)
    (hblen : prob.b.length = prob.r.length)
    (hfeas : feasible prob S = true) :
    repair prob simpleOp u S = some S ∧
    ∃ S', repair prob fancyOp u S = some S' ∧ ∀ j, S.getD j 0 = 1 → S'.getD j 0 = 1 := by
  have hlen : (usage prob.r S).length = prob.b.length := by rw [length_usage, hblen]
  have hgt : anyGT (usage prob.r S) prob.b = false := by
    unfold feasible at hfeas
    exact (anyGT_eq_false_iff hlen).mpr hfeas
  have hcond : ¬ anyGT (usage prob.r S) prob.b = true := by
    rw [hgt]
    simp
  constructor
  · unfold repair
    dsimp only
    rw [if_pos rfl, if_neg hcond]
  · obtain ⟨a1, a2, a3⟩ := @addFold_spec prob u hblen
      ((List.range' 1 (prob.items - 1)).reverse) S (usage prob.r S) hr rfl hgt
    obtain ⟨hmono, _⟩ := @addFold_changes prob u
      ((List.range' 1 (prob.items - 1)).reverse) S (usage prob.r S)
    refine ⟨(addPhase prob u S (usage prob.r S)).1, ?_, hmono⟩
    unfold repair
    dsimp only
    rw [if_neg (by simp [simpleOp, fancyOp]), if_pos rfl]
    unfold fancy_repair
    rw [dropPhase_of_not_anyGT hgt]
    dsimp only
    have hcond' : ¬ anyGT (addPhase prob u S (usage prob.r S)).2 prob.b = true := by
      rw [show anyGT (addPhase prob u S (usage prob.r S)).2 prob.b = false from a3]
      simp
    rw [if_neg hcond']

/-- Claim C3 witness: on the feasible chromosome `[1, 0]` the simple strategy
is the identity and the fancy strategy keeps item 0 selected. -/
theorem repair_on_feasible_witness :
    repair ⟨2, 1, [[1, 1]], [2], [1, 1]⟩ simpleOp [0, 1] [1, 0] = some [1, 0] ∧
    ∃ S', repair ⟨2, 1, [[1, 1]], [2], [1, 1]⟩ fancyOp [0, 1] [1, 0] = some S' ∧
      ∀ j, ([1, 0] : List Int).getD j 0 = 1 → S'.getD j 0 = 1 :=
  repair_on_feasible ⟨2, 1, [[1, 1]], [2], [1, 1]⟩ [0, 1] [1, 0]
    (by decide) (by decide) (by decide)

/-- Claim C4 counterexample: for `m = 3` knapsacks with duals `w = [1, 1, 1]`,
the code's utility of item 0 (profit over the two-term denominator) differs
from the spec's all-knapsack utility, and the returned ranking `[1, 0]` is not
ascending in the spec's utility (item 0 has the strictly smaller spec
utility). -/
theorem utility_ranking_not_over_all_knapsacks :
    repair_preprocess ⟨2, 3, [[1, 2], [1, 1], [3, 1]], [9, 9, 9], [4, 4]⟩ [1, 1, 1] =
      some [1, 0] ∧
    utilityCode ⟨2, 3, [[1, 2], [1, 1], [3, 1]], [9, 9, 9], [4, 4]⟩ [1, 1, 1] 0 ≠
      NpVal.fin (utilitySpec ⟨2, 3, [[1, 2], [1, 1], [3, 1]], [9, 9, 9], [4, 4]⟩ [1, 1, 1] 0) ∧
    utilitySpec ⟨2, 3, [[1, 2], [1, 1], [3, 1]], [9, 9, 9], [4, 4]⟩ [1, 1, 1] 0 <
      utilitySpec ⟨2, 3, [[1, 2], [1, 1], [3, 1]], [9, 9, 9], [4, 4]⟩ [1, 1, 1] 1 := by
  refine ⟨?_, ?_, ?_⟩
  · simp only [repair_preprocess, List.insertionSort, List.orderedInsert]
    norm_num [utilityCode, utilityDenom, npLe, List.range_succ]
  · simp only [utilityCode, utilityDenom, utilitySpec]
    norm_num [List.range_succ]
  · simp [utilitySpec, List.range_succ]
    norm_num

/-- Claim C4 (amended): the preprocessing step reads `w[0]`, `w[1]`, `r[0, :]`
and `r[1, :]`, so it fails (IndexError) whenever fewer than two dual entries
or cost rows exist (`m < 2`); otherwise it computes each item's utility as
profit divided by the two-term sum `w[0]*r[0][j] + w[1]*r[1][j]` — over the
first two knapsacks only, regardless of `m` — in numpy float semantics (a zero
two-term denominator yields `+inf`/`nan`, placed after every finite value by
`np.argsort`), and returns the permutation of item indices sorted ascending in
that order. When `m = 2` and the two-term denominator is nonzero this utility
coincides with the spec's all-knapsack formula. -/
theorem utility_ranking_first_two_knapsacks (prob : Problem) (w : List ℚ) :
    (¬ (2 ≤ prob.r.length ∧ 2 ≤ w.length) → repair_preprocess prob w = none) ∧
    ((2 ≤ prob.r.length ∧ 2 ≤ w.length) →
      ∃ u, repair_preprocess prob w = some u ∧ u.Perm (List.range prob.items) ∧
        List.Sorted (fun a c => npLe (utilityCode prob w a) (utilityCode prob w c) = true) u) ∧
    (prob.knapsacks = 2 → ∀ j, utilityDenom prob w j ≠ 0 →
      utilityCode prob w j = NpVal.fin (utilitySpec prob w j)) := by
  refine ⟨?_, ?_, ?_⟩
  · intro hlt
    unfold repair_preprocess
    rw [if_neg hlt]
  · intro hge
    refine ⟨_, by unfold repair_preprocess; rw [if_pos hge], List.perm_insertionSort _ _, ?_⟩
    have ht : IsTotal Nat
        (fun a c => npLe (utilityCode prob w a) (utilityCode prob w c) = true) :=
      ⟨fun a c => npLe_total _ _⟩
    have htr : IsTrans Nat
        (fun a c => npLe (utilityCode prob w a) (utilityCode prob w c) = true) :=
      ⟨fun a c d h1 h2 => npLe_trans h1 h2⟩
    exact @List.sorted_insertionSort Nat _ _ ht htr _
  · intro h2 j hden
    unfold utilityCode
    dsimp only
    rw [if_neg hden]
    unfold utilitySpec utilityDenom
    rw [h2]

/-- Claim C4 witness: for a concrete `m = 2` instance the returned ranking is
a sorted permutation and the code utility (finite, denominator 5) equals the
spec utility; for a concrete `m = 1` instance the preprocessing fails. -/
theorem utility_ranking_first_two_knapsacks_witness :
    (∃ u, repair_preprocess ⟨1, 2, [[2], [3]], [5, 5], [6]⟩ [1, 1] = some u ∧
      u.Perm (List.range 1) ∧
      List.Sorted (fun a c => npLe (utilityCode ⟨1, 2, [[2], [3]], [5, 5], [6]⟩ [1, 1] a)
        (utilityCode ⟨1, 2, [[2], [3]], [5, 5], [6]⟩ [1, 1] c) = true) u) ∧
    utilityCode ⟨1, 2, [[2], [3]], [5, 5], [6]⟩ [1, 1] 0 =
      NpVal.fin (utilitySpec ⟨1, 2, [[2], [3]], [5, 5], [6]⟩ [1, 1] 0) ∧
    repair_preprocess ⟨1, 1, [[2]], [5], [6]⟩ [1] = none :=
  ⟨(utility_ranking_first_two_knapsacks ⟨1, 2, [[2], [3]], [5, 5], [6]⟩ [1, 1]).2.1
      (by decide),
    (utility_ranking_first_two_knapsacks ⟨1, 2, [[2], [3]], [5, 5], [6]⟩ [1, 1]).2.2 rfl 0
      (by norm_num [utilityDenom, List.range_succ]),
    (utility_ranking_first_two_knapsacks ⟨1, 1, [[2]], [5], [6]⟩ [1]).1 (by decide)⟩

/-- Claim C5 counterexample: with ranking `u = [0, 1]` on an empty feasible
chromosome, the add phase returns `[0, 1]`: the item `u[0] = 0` stays
unselected even though its addition keeps the single capacity satisfied
(usage 1 + cost 1 ≤ 2) — the scan `range(items - 1, 0, -1)` skips u-index 0. -/
theorem add_phase_skips_lowest_utility_item :
    addPhase ⟨2, 1, [[1, 1]], [2], [1, 1]⟩ [0, 1] [0, 0] [0] = ([0, 1], [1]) ∧
    (([0, 1] : List Int).getD 0 0 = 0) ∧
    vecLE (vecAdd [1] (col [[1, 1]] 0)) [2] = true := by decide

/-- Claim C5 (amended): the add phase scans exactly the u-indices
`items - 1, ..., 1`: it never deselects an item, every chromosome entry it
changes is an item `u[i]` with `1 ≤ i < items`, and the item `u[0]` (the
lowest-utility item) is never considered — its bit is left untouched. -/
theorem add_phase_scan_range (prob : Problem) (u : List Nat) (S R : List Int)
    (hu : u.Nodup) (hulen : u.length = prob.items) (hn : 0 < prob.items) :
    (∀ j, S.getD j 0 = 1 → (addPhase prob u S R).1.getD j 0 = 1) ∧
    (∀ j, (addPhase prob u S R).1.getD j 0 ≠ S.getD j 0 →
      ∃ i, 1 ≤ i ∧ i < prob.items ∧ j = u.getD i 0) ∧
    (addPhase prob u S R).1.getD (u.getD 0 0) 0 = S.getD (u.getD 0 0) 0 := by
  obtain ⟨h1, h2⟩ := @addFold_changes prob u
    ((List.range' 1 (prob.items - 1)).reverse) S R
  have hmid : ∀ j, (addPhase prob u S R).1.getD j 0 ≠ S.getD j 0 →
      ∃ i, 1 ≤ i ∧ i < prob.items ∧ j = u.getD i 0 := by
    intro j hj
    obtain ⟨i, hiL, hji⟩ := h2 j hj
    rw [List.mem_reverse] at hiL
    have hb := List.mem_range'_1.mp hiL
    exact ⟨i, hb.1, by omega, hji⟩
  refine ⟨h1, hmid, ?_⟩
  by_contra hne
  obtain ⟨i, hi1, hi2, hji⟩ := hmid (u.getD 0 0) hne
  have h0len : 0 < u.length := hulen ▸ hn
  have hilen : i < u.length := hulen ▸ hi2
  rw [List.getD_eq_getElem u 0 h0len, List.getD_eq_getElem u 0 hilen] at hji
  exact absurd ((hu.getElem_inj_iff).mp hji) (by omega)

/-- Claim C5 witness: the scan-range properties at the counterexample input. -/
theorem add_phase_scan_range_witness :
    (∀ j, ([0, 0] : List Int).getD j 0 = 1 →
      (addPhase ⟨2, 1, [[1, 1]], [2], [1, 1]⟩ [0, 1] [0, 0] [0]).1.getD j 0 = 1) ∧
    (∀ j, (addPhase ⟨2, 1, [[1, 1]], [2], [1, 1]⟩ [0, 1] [0, 0] [0]).1.getD j 0 ≠
        ([0, 0] : List Int).getD j 0 →
      ∃ i, 1 ≤ i ∧ i < 2 ∧ j = ([0, 1] : List Nat).getD i 0) ∧
    (addPhase ⟨2, 1, [[1, 1]], [2], [1, 1]⟩ [0, 1] [0, 0] [0]).1.getD
        (([0, 1] : List Nat).getD 0 0) 0 =
      ([0, 0] : List Int).getD (([0, 1] : List Nat).getD 0 0) 0 :=
  add_phase_scan_range ⟨2, 1, [[1, 1]], [2], [1, 1]⟩ [0, 1] [0, 0] [0]
    (by decide) (by decide) (by decide)

/-- Claim C6: for every binary chromosome with its consistent usage vector
`r · S` and a ranking covering all items, the drop phase terminates with a
feasible chromosome; the add phase never deselects a selected item and keeps
every constraint satisfied; hence `fancy_repair` returns the add-phase result
and the sanity-check error branch is not taken. -/
theorem fancy_repair_correct (prob : Problem) (u : List Nat) (S : List Int)
    (hr : ∀ row ∈ prob.r, row.length = S.length)
    (hblen : prob.b.length = prob.r.length)
    (hb0 : ∀ y ∈ prob.b, 0 ≤ y)
    (hbin : ∀ x ∈ S, x = 0 ∨ x = 1)
    (hcov : ∀ j ∈ List.range S.length, j ∈ u) :
    ∃ S₁ R₁, dropPhase prob u S (usage prob.r S) = some (S₁, R₁) ∧
      feasible prob S₁ = true ∧
      (∀ j, S₁.getD j 0 = 1 → (addPhase prob u S₁ R₁).1.getD j 0 = 1) ∧
      feasible prob (addPhase prob u S₁ R₁).1 = true ∧
      fancy_repair prob u S (usage prob.r S) = some (addPhase prob u S₁ R₁).1 := by
  have hcov' : ∀ j, S.getD j 0 = 1 → j ∈ u := by
    intro j hj
    refine hcov j (List.mem_range.mpr ?_)
    by_contra hlen
    rw [List.getD_eq_default _ _ (Nat.le_of_not_lt hlen)] at hj
    exact absurd hj (by norm_num)
  obtain ⟨SR₁, hdrop⟩ := dropPhase_total hb0 u S (usage prob.r S) hr rfl hbin hcov'
  obtain ⟨d1, d2, d3, _⟩ := dropPhase_some_spec u S (usage prob.r S) SR₁.1 SR₁.2
    (by rw [hdrop]) hr rfl
  obtain ⟨a1, a2, a3⟩ := @addFold_spec prob u hblen
    ((List.range' 1 (prob.items - 1)).reverse) SR₁.1 SR₁.2 (by rw [d2]; exact hr) d1 d3
  obtain ⟨hmono, _⟩ := @addFold_changes prob u
    ((List.range' 1 (prob.items - 1)).reverse) SR₁.1 SR₁.2
  have hfd : feasible prob SR₁.1 = true := by
    unfold feasible
    have hlen : SR₁.2.length = prob.b.length := by rw [d1, length_usage, hblen]
    have := (anyGT_eq_false_iff hlen).mp d3
    rw [d1] at this
    exact this
  have ha3 : anyGT (addPhase prob u SR₁.1 SR₁.2).2 prob.b = false := a3
  have hfa : feasible prob (addPhase prob u SR₁.1 SR₁.2).1 = true := by
    unfold feasible
    have ha1 : (addPhase prob u SR₁.1 SR₁.2).2 =
        usage prob.r (addPhase prob u SR₁.1 SR₁.2).1 := a1
    have hlen : (addPhase prob u SR₁.1 SR₁.2).2.length = prob.b.length := by
      rw [ha1, length_usage, hblen]
    have := (anyGT_eq_false_iff hlen).mp ha3
    rw [ha1] at this
    exact this
  refine ⟨SR₁.1, SR₁.2, by rw [hdrop], hfd, hmono, hfa, ?_⟩
  unfold fancy_repair
  rw [hdrop]
  dsimp only
  have hcond : ¬ anyGT (addPhase prob u SR₁.1 SR₁.2).2 prob.b = true := by
    rw [ha3]
    simp
  rw [if_neg hcond]

/-- Claim C6 witness: the infeasible binary chromosome `[1, 1]` (usage 4 over
capacity 2) is repaired through the drop and add phases. -/
theorem fancy_repair_correct_witness :
    ∃ S₁ R₁, dropPhase ⟨2, 1, [[2, 2]], [2], [1, 1]⟩ [0, 1] [1, 1]
        (usage [[2, 2]] [1, 1]) = some (S₁, R₁) ∧
      feasible ⟨2, 1, [[2, 2]], [2], [1, 1]⟩ S₁ = true ∧
      (∀ j, S₁.getD j 0 = 1 →
        (addPhase ⟨2, 1, [[2, 2]], [2], [1, 1]⟩ [0, 1] S₁ R₁).1.getD j 0 = 1) ∧
      feasible ⟨2, 1, [[2, 2]], [2], [1, 1]⟩
        (addPhase ⟨2, 1, [[2, 2]], [2], [1, 1]⟩ [0, 1] S₁ R₁).1 = true ∧
      fancy_repair ⟨2, 1, [[2, 2]], [2], [1, 1]⟩ [0, 1] [1, 1] (usage [[2, 2]] [1, 1]) =
        some (addPhase ⟨2, 1, [[2, 2]], [2], [1, 1]⟩ [0, 1] S₁ R₁).1 :=
  fancy_repair_correct ⟨2, 1, [[2, 2]], [2], [1, 1]⟩ [0, 1] [1, 1]
    (by decide) (by decide) (by decide) (by decide) (by decide)

/-- Claim C7: the simple strategy returns a feasible chromosome unchanged and
resets an infeasible chromosome to the all-zero vector. -/
theorem simple_repair_correct (prob : Problem) (u : List Nat) (S : List Int)
    (hblen : prob.b.length = prob.r.length) :
    (feasible prob S = true → repair prob simpleOp u S = some S) ∧
    (feasible prob S = false → repair prob simpleOp u S = some (List.replicate S.length 0)) := by
  have hlen : (usage prob.r S).length = prob.b.length := by rw [length_usage, hblen]
  constructor
  · intro hfeas
    unfold feasible at hfeas
    unfold repair
    dsimp only
    have hcond : ¬ anyGT (usage prob.r S) prob.b = true := by
      rw [(anyGT_eq_false_iff hlen).mpr hfeas]
      simp
    rw [if_pos rfl, if_neg hcond]
  · intro hinf
    have hgt : anyGT (usage prob.r S) prob.b = true := by
      by_contra hgt
      rw [Bool.not_eq_true] at hgt
      unfold feasible at hinf
      rw [(anyGT_eq_false_iff hlen).mp hgt] at hinf
      exact absurd hinf (by simp)
    unfold repair
    dsimp only
    rw [if_pos rfl, if_pos hgt]

/-- Claim C7 witness: the spec scenario — `[1, 1, 1, 1]` with cost sum 1400
over capacity 700 is reset to the all-zero vector. -/
theorem simple_repair_correct_witness :
    feasible ⟨4, 1, [[500, 300, 200, 400]], [700], [50, 80, 30, 60]⟩ [1, 1, 1, 1] = false ∧
    repair ⟨4, 1, [[500, 300, 200, 400]], [700], [50, 80, 30, 60]⟩ simpleOp [0, 1, 2, 3]
      [1, 1, 1, 1] = some (List.replicate ([1, 1, 1, 1] : List Int).length 0) :=
  ⟨by decide,
    (simple_repair_correct ⟨4, 1, [[500, 300, 200, 400]], [700], [50, 80, 30, 60]⟩
      [0, 1, 2, 3] [1, 1, 1, 1] (by decide)).2 (by decide)⟩

/-- Claim C8: elitism monotonicity. For every run, the best-fitness record is
non-decreasing across consecutive generations: each generation carries the
previous record forward and replaces it only by a strictly greater child
fitness. -/
theorem fitness_record_monotone (prob : Problem) (operator : String)
    (perms : List (List Nat)) (w : List ℚ) (gens : List (List AttemptRand)) (st : GAState)
    (hrun : find_ga prob operator perms w gens = some st) :
    List.Chain' (fun a c => a ≤ c) st.fitness_record := by
  unfold find_ga at hrun
  rcases hinit : initialize_pop prob perms with _ | pop
  · rw [hinit] at hrun
    exact absurd hrun (by simp)
  · rw [hinit] at hrun
    dsimp only at hrun
    rcases hpre : repair_preprocess prob w with _ | u
    · rw [hpre] at hrun
      exact absurd hrun (by simp)
    · rw [hpre] at hrun
      have h1 : List.Chain' (fun a c => a ≤ c) (mkInitState prob pop).fitness_record :=
        List.chain'_singleton _
      have h2 : (mkInitState prob pop).fitness_record ≠ [] := by
        simp [mkInitState]
      exact runGA_record gens _ st h1 h2 hrun

/-- Claim C8 witness: the record of the concrete one-generation run is a
non-decreasing chain. -/
theorem fitness_record_monotone_witness :
    List.Chain' (fun a c => a ≤ c)
      (⟨[[1, 0], [1, 0], [1, 0], [1, 0]], [5, 5, 5, 5], [5, 5],
        [[1, 0], [1, 0]]⟩ : GAState).fitness_record :=
  fitness_record_monotone ⟨2, 2, [[1, 3], [1, 3]], [2, 2], [5, 7]⟩ simpleOp
    [[0, 1], [0, 1], [0, 1], [0, 1]] [1, 1] [[⟨[0, 1], [2, 3], [0, 0], 0, 1⟩]] _ (by decide)

/-- Claim C9: whenever binary tournament selection succeeds, the two draw
pools are disjoint (the source deletes `T_1` from the index pool before
drawing `T_2`), and therefore the two returned parent indices are distinct. -/
theorem tournament_parents_distinct (popSize : Nat) (fitness : List Int)
    (t1 t2 : List Nat) (p1 p2 : Nat)
    (h : binary_tournament_selection popSize fitness t1 t2 = some (p1, p2)) :
    (∀ x ∈ t1, x ∉ t2) ∧ p1 ≠ p2 := by
  obtain ⟨hp1, hp2, hdisj, _, _⟩ := selection_some_spec h
  refine ⟨fun x hx hxt2 => hdisj x hxt2 hx, fun heq => ?_⟩
  exact hdisj p2 hp2 (heq ▸ hp1)

/-- Claim C9 witness: the spec scenario — a population of 6 distinct fitness
values; the draws `[0, 1]` and `[2, 3]` select parents 1 and 3. -/
theorem tournament_parents_distinct_witness :
    (∀ x ∈ ([0, 1] : List Nat), x ∉ ([2, 3] : List Nat)) ∧ (1 : Nat) ≠ 3 :=
  tournament_parents_distinct 6 [10, 20, 30, 40, 50, 60] [0, 1] [2, 3] 1 3 (by decide)

/-- Claim C10 (code bug): on the one-item instance with an all-zero cost
matrix (capacity `b = [0]`), every item fits, the greedy scan selects the only
item and then pops `T[-1]` from the exhausted permutation — an IndexError
(`none` in the embedding) instead of the claimed normal termination. -/
theorem initialize_pop_exhausts_permutation :
    initialize_pop ⟨1, 1, [[0]], [0], [0]⟩ [[0]] = none := by decide

end GeneticAlg
